import Mathlib

/-!
Verification of the incremental transitive-closure index maintained by the
`update_tc` trigger installed on the links table (source:
`aiida/backends/sqlalchemy/utils.py`, `get_pg_tc`).  The closure table
`db_dbpath` is modelled as a list of rows; the trigger body is translated
statement by statement: the guard checks, the depth-0 insertion, the three
derivation statements of the INSERT branch (each reading the table state
left by the previous ones), and the seed / fixed-point purge loop / batch
delete of the DELETE branch.
-/

/-- Closure-table row, mirroring the columns of the `db_dbpath` table:
`id`, `parent_id`, `child_id`, `depth`, `entry_edge_id`, `direct_edge_id`,
`exit_edge_id`. -/
structure ClosureEntry where
  id : Nat
  parent_id : Nat
  child_id : Nat
  depth : Nat
  entry_edge_id : Nat
  direct_edge_id : Nat
  exit_edge_id : Nat
  deriving DecidableEq, Repr

/-- Reasons an edge insertion is refused by the guard at the top of the
INSERT branch of `update_tc` (names from the specification; the SQL
returns `null` in all three cases). -/
inductive RejectReason where
  | SelfLoop
  | AlreadyLinked
  | WouldCreateCycle
  deriving DecidableEq, Repr

/-- The trigger operation `tg_op` dispatched on by the body of `update_tc`. -/
inductive TgOp where
  | ins
  | del
  | upd
  deriving DecidableEq, Repr

/-- The first guard of the INSERT branch: a depth-0 closure row for
`(i, o)` already exists. -/
def depth0Exists (t : List ClosureEntry) (i o : Nat) : Bool :=
  t.any fun e => decide (e.parent_id = i ∧ e.child_id = o ∧ e.depth = 0)

/-- The cycle guard of the INSERT branch: some closure row runs from `o`
back to `i`. -/
def cycleExists (t : List ClosureEntry) (i o : Nat) : Bool :=
  t.any fun e => decide (e.parent_id = o ∧ e.child_id = i)

/-- Assign consecutive identifiers (starting at `base`) to the rows built
from a selected list, as the serial `id` column does for an
`INSERT INTO ... SELECT`. -/
def numberWith {α : Type} (f : Nat → α → ClosureEntry) : Nat → List α → List ClosureEntry
  | _, [] => []
  | base, x :: rest => f base x :: numberWith f (base + 1) rest

/-- Cross join of two row lists, as in the third derivation statement. -/
def crossPairs {α β : Type} : List α → List β → List (α × β)
  | [], _ => []
  | a :: rest, lb => lb.map (fun b => (a, b)) ++ crossPairs rest lb

/-- The fresh depth-0 row for the new edge `(i, o)`: after the follow-up
UPDATE, its `entry_edge_id`, `direct_edge_id` and `exit_edge_id` all equal
its own id. -/
def mkDepth0 (n i o : Nat) : ClosureEntry := ⟨n, i, o, 0, n, n, n⟩

/-- Rows produced by the first derivation statement: every row whose
`child_id` equals the new edge's input is extended by one hop to the new
edge's output. -/
def rowsStep3 (base newId i o : Nat) (t : List ClosureEntry) : List ClosureEntry :=
  numberWith (fun b e => ⟨b, e.parent_id, o, e.depth + 1, e.id, newId, newId⟩) base
    (t.filter fun e => decide (e.child_id = i))

/-- Rows produced by the second derivation statement: every row whose
`parent_id` equals the new edge's output is extended backward by one hop
from the new edge's input. -/
def rowsStep4 (base newId i o : Nat) (t : List ClosureEntry) : List ClosureEntry :=
  numberWith (fun b e => ⟨b, i, e.child_id, e.depth + 1, newId, newId, e.id⟩) base
    (t.filter fun e => decide (e.parent_id = o))

/-- Rows produced by the third derivation statement: the cross join bridges
every row into the input with every row out of the output. -/
def rowsStep5 (base newId i o : Nat) (t : List ClosureEntry) : List ClosureEntry :=
  numberWith
    (fun b p => ⟨b, p.1.parent_id, p.2.child_id, p.1.depth + p.2.depth + 2, p.1.id, newId, p.2.id⟩)
    base
    (crossPairs (t.filter fun e => decide (e.child_id = i))
      (t.filter fun e => decide (e.parent_id = o)))

/-- Result of one firing of the trigger: the new closure table, the next
fresh row id, and the reject reason when the INSERT branch returned early. -/
structure TriggerResult where
  table : List ClosureEntry
  nextId : Nat
  rejected : Option RejectReason
  deriving DecidableEq, Repr

/-- The INSERT branch of `update_tc` for a new edge `(i, o)`: the two guard
checks, then the depth-0 row, then the three derivation statements executed
sequentially, each one reading the table state left by the previous
statements (as consecutive SQL statements do). -/
def insertBranch (t : List ClosureEntry) (n i o : Nat) : TriggerResult :=
  if depth0Exists t i o then ⟨t, n, some .AlreadyLinked⟩
  else if i = o then ⟨t, n, some .SelfLoop⟩
  else if cycleExists t i o then ⟨t, n, some .WouldCreateCycle⟩
  else
    let t1 := t ++ [mkDepth0 n i o]
    let r3 := rowsStep3 (n + 1) n i o t1
    let t2 := t1 ++ r3
    let r4 := rowsStep4 (n + 1 + r3.length) n i o t2
    let t3 := t2 ++ r4
    let r5 := rowsStep5 (n + 1 + r3.length + r4.length) n i o t3
    ⟨t3 ++ r5, n + 1 + r3.length + r4.length + r5.length, none⟩

/-- Seed of the purge list: the ids of the depth-0 rows for the deleted
edge `(i, o)`. -/
def purgeSeed (t : List ClosureEntry) (i o : Nat) : List Nat :=
  (t.filter fun e => decide (e.parent_id = i ∧ e.child_id = o ∧ e.depth = 0)).map (·.id)

/-- One scan of the fixed-point loop: ids of rows with positive depth, not
yet in the purge list, whose `entry_edge_id`, `direct_edge_id` or
`exit_edge_id` is already in the purge list. -/
def newPurgeIds (t : List ClosureEntry) (s : List Nat) : List Nat :=
  (t.filter fun e =>
    decide (e.depth ≠ 0 ∧
      (e.entry_edge_id ∈ s ∨ e.direct_edge_id ∈ s ∨ e.exit_edge_id ∈ s) ∧ e.id ∉ s)).map (·.id)

/-- The WHILE loop of the DELETE branch, with an explicit fuel bound.  The
loop of the SQL runs until a scan adds no row; the theorems below show
`t.length` scans always reach that fixed point. -/
def purgeLoop (t : List ClosureEntry) : List Nat → Nat → List Nat
  | s, 0 => s
  | s, fuel + 1 =>
    let add := newPurgeIds t s
    if add.isEmpty then s else purgeLoop t (s ++ add) fuel

/-- The DELETE branch of `update_tc` for a removed edge `(i, o)`: if no
depth-0 row matches, return with the table untouched; otherwise expand the
purge list to its fixed point and delete every row whose id is in it. -/
def delete_tc (t : List ClosureEntry) (i o : Nat) : List ClosureEntry :=
  let seed := purgeSeed t i o
  if seed.isEmpty then t
  else
    let purge := purgeLoop t seed t.length
    t.filter fun e => decide (e.id ∉ purge)

/-- The body of `update_tc`, dispatching on `tg_op`: the INSERT branch, the
DELETE branch, and the fall-through for UPDATE (no branch matches; the body
runs straight to `RETURN NULL`). -/
def update_tc (op : TgOp) (i o : Nat) (t : List ClosureEntry) (n : Nat) : TriggerResult :=
  match op with
  | .ins => insertBranch t n i o
  | .del => ⟨delete_tc t i o, n, none⟩
  | .upd => ⟨t, n, none⟩

/-- Modelled from the spec (InsertionHandler steps 3-5): the derivation in
which all three steps read the single pre-insertion snapshot `t` of the
closure table, none of them seeing rows inserted by the same call. -/
def snapshotDerived (t : List ClosureEntry) (n i o : Nat) : List ClosureEntry :=
  let r3 := rowsStep3 (n + 1) n i o t
  let r4 := rowsStep4 (n + 1 + r3.length) n i o t
  let r5 := rowsStep5 (n + 1 + r3.length + r4.length) n i o t
  r3 ++ r4 ++ r5

/-- An edge mutation on the links table, each of which fires the trigger
exactly once. -/
inductive LinkOp where
  | insertLink (i o : Nat)
  | deleteLink (i o : Nat)
  deriving DecidableEq, Repr

/-- Joint state of the links table (the edge set) and the closure table. -/
structure St where
  edges : List (Nat × Nat)
  table : List ClosureEntry
  nextId : Nat
  deriving DecidableEq, Repr

/-- The empty initial state. -/
def St.start : St := ⟨[], [], 0⟩

/-- Apply one edge mutation through the trigger.  A rejected insertion
leaves everything unchanged (the guard refuses the edge); an accepted one
adds the edge and the rows derived by the INSERT branch; a deletion removes
the edge and fires the DELETE branch. -/
def step (s : St) : LinkOp → St
  | .insertLink i o =>
    let r := update_tc .ins i o s.table s.nextId
    match r.rejected with
    | some _ => s
    | none => ⟨(i, o) :: s.edges, r.table, r.nextId⟩
  | .deleteLink i o =>
    let r := update_tc .del i o s.table s.nextId
    ⟨s.edges.filter (fun pr => decide (pr ≠ (i, o))), r.table, r.nextId⟩

/-- Run a sequence of edge mutations from the empty state. -/
def runOps (ops : List LinkOp) : St := ops.foldl step St.start

/-- Existence of a (nonempty) directed path in the edge set. -/
inductive Reach (E : List (Nat × Nat)) : Nat → Nat → Prop where
  | edge : ∀ {a b : Nat}, (a, b) ∈ E → Reach E a b
  | trans : ∀ {a b c : Nat}, Reach E a b → Reach E b c → Reach E a c

/-- Well-formedness of one closure row with respect to the edge set and the
table it lives in: a depth-0 row records a present edge and is
self-referential; a deeper row cites a depth-0 row as its `direct_edge_id`
and composes an optional strictly-shallower front part, that direct edge,
and an optional strictly-shallower back part. -/
def WFat (E : List (Nat × Nat)) (t : List ClosureEntry) (e : ClosureEntry) : Prop :=
  (e.depth = 0 →
    (e.parent_id, e.child_id) ∈ E ∧ e.entry_edge_id = e.id ∧ e.direct_edge_id = e.id ∧
      e.exit_edge_id = e.id) ∧
  (e.depth ≠ 0 →
    ∃ d, d ∈ t ∧ d.id = e.direct_edge_id ∧ d.depth = 0 ∧
      ((e.entry_edge_id = e.direct_edge_id ∧ e.parent_id = d.parent_id) ∨
        ∃ a, a ∈ t ∧ a.id = e.entry_edge_id ∧ a.parent_id = e.parent_id ∧
          a.child_id = d.parent_id ∧ a.depth < e.depth) ∧
      ((e.exit_edge_id = e.direct_edge_id ∧ e.child_id = d.child_id) ∨
        ∃ b, b ∈ t ∧ b.id = e.exit_edge_id ∧ b.parent_id = d.child_id ∧
          b.child_id = e.child_id ∧ b.depth < e.depth))

/-- The maintained invariant: every row of the closure table is
well-formed. -/
def InvTC (E : List (Nat × Nat)) (t : List ClosureEntry) : Prop :=
  ∀ e, e ∈ t → WFat E t e

/-- The `(parent_id, child_id, depth)` triple a lineage field points at, if
any row of the table carries that id. -/
def refTriple (t : List ClosureEntry) (x : Nat) : Option (Nat × Nat × Nat) :=
  (t.find? fun e => decide (e.id = x)).map fun e => (e.parent_id, e.child_id, e.depth)

/-- Identifier-free lineage shape of a row: its own
`(parent_id, child_id, depth)` triple together with the triples its three
lineage fields resolve to in the given table. -/
structure LineageShape where
  rowTriple : Nat × Nat × Nat
  entryRef : Option (Nat × Nat × Nat)
  directRef : Option (Nat × Nat × Nat)
  exitRef : Option (Nat × Nat × Nat)
  deriving DecidableEq, Repr

/-- The lineage shape of one row of a table. -/
def lineageProfile (t : List ClosureEntry) (e : ClosureEntry) : LineageShape :=
  ⟨(e.parent_id, e.child_id, e.depth), refTriple t e.entry_edge_id,
    refTriple t e.direct_edge_id, refTriple t e.exit_edge_id⟩

/-- The closure table built by inserting the chain 1→2→3→4 from scratch. -/
def chainSt : St := runOps [.insertLink 1 2, .insertLink 2 3, .insertLink 3 4]

/-- The closure table after deleting `(2, 3)` from the chain and
reinserting it. -/
def reinsertSt : St :=
  runOps [.insertLink 1 2, .insertLink 2 3, .insertLink 3 4, .deleteLink 2 3, .insertLink 2 3]

theorem mem_numberWith {α : Type} {f : Nat → α → ClosureEntry} :
    ∀ {base : Nat} {l : List α} {r : ClosureEntry}, r ∈ numberWith f base l →
      ∃ b x, x ∈ l ∧ r = f b x := by
  intro base l
  induction l generalizing base with
  | nil => intro r h; simp [numberWith] at h
  | cons x rest ih =>
    intro r h
    simp only [numberWith] at h
    rcases List.mem_cons.mp h with h | h
    · exact ⟨base, x, List.mem_cons_self x rest, h⟩
    · obtain ⟨b, y, hy, hr⟩ := ih h
      exact ⟨b, y, List.mem_cons_of_mem x hy, hr⟩

theorem mem_crossPairs {α β : Type} :
    ∀ {la : List α} {lb : List β} {p : α × β}, p ∈ crossPairs la lb →
      p.1 ∈ la ∧ p.2 ∈ lb := by
  intro la
  induction la with
  | nil => intro lb p h; simp [crossPairs] at h
  | cons a rest ih =>
    intro lb p h
    rcases List.mem_append.mp h with h | h
    · obtain ⟨b, hb, hp⟩ := List.mem_map.mp h
      subst hp
      exact ⟨List.mem_cons_self a rest, hb⟩
    · obtain ⟨h1, h2⟩ := ih h
      exact ⟨List.mem_cons_of_mem a h1, h2⟩

theorem cycleExists_false {t : List ClosureEntry} {i o : Nat}
    (h : cycleExists t i o = false) :
    ∀ e ∈ t, ¬(e.parent_id = o ∧ e.child_id = i) := by
  intro e he hc
  have : cycleExists t i o = true :=
    List.any_eq_true.mpr ⟨e, he, decide_eq_true hc⟩
  simp [this] at h

theorem depth0Exists_false {t : List ClosureEntry} {i o : Nat}
    (h : depth0Exists t i o = false) :
    ∀ e ∈ t, ¬(e.parent_id = i ∧ e.child_id = o ∧ e.depth = 0) := by
  intro e he hc
  have : depth0Exists t i o = true :=
    List.any_eq_true.mpr ⟨e, he, decide_eq_true hc⟩
  simp [this] at h

theorem purgeSeed_nil {t : List ClosureEntry} {i o : Nat}
    (h : purgeSeed t i o = []) :
    ∀ e ∈ t, ¬(e.parent_id = i ∧ e.child_id = o ∧ e.depth = 0) := by
  intro e he hc
  have hf := List.map_eq_nil_iff.mp h
  have := List.filter_eq_nil_iff.mp hf e he
  simp only [decide_eq_true_eq] at this
  exact this hc

theorem mem_purgeSeed {t : List ClosureEntry} {i o : Nat} {e : ClosureEntry}
    (he : e ∈ t) (hc : e.parent_id = i ∧ e.child_id = o ∧ e.depth = 0) :
    e.id ∈ purgeSeed t i o :=
  List.mem_map.mpr ⟨e, List.mem_filter.mpr ⟨he, decide_eq_true hc⟩, rfl⟩

theorem purgeSeed_spec {t : List ClosureEntry} {i o : Nat} {x : Nat}
    (hx : x ∈ purgeSeed t i o) :
    ∃ e ∈ t, e.id = x ∧ e.parent_id = i ∧ e.child_id = o ∧ e.depth = 0 := by
  obtain ⟨e, hef, hid⟩ := List.mem_map.mp hx
  obtain ⟨he, hp⟩ := List.mem_filter.mp hef
  simp only [decide_eq_true_eq] at hp
  exact ⟨e, he, hid, hp⟩

theorem newPurgeIds_spec {t : List ClosureEntry} {s : List Nat} {x : Nat}
    (hx : x ∈ newPurgeIds t s) :
    ∃ e ∈ t, e.id = x ∧ e.depth ≠ 0 ∧ e.id ∉ s ∧
      (e.entry_edge_id ∈ s ∨ e.direct_edge_id ∈ s ∨ e.exit_edge_id ∈ s) := by
  obtain ⟨e, hef, hid⟩ := List.mem_map.mp hx
  obtain ⟨he, hp⟩ := List.mem_filter.mp hef
  simp only [decide_eq_true_eq] at hp
  exact ⟨e, he, hid, hp.1, hp.2.2, hp.2.1⟩

theorem newPurgeIds_nil_no_cite {t : List ClosureEntry} {s : List Nat}
    (h : newPurgeIds t s = []) {e : ClosureEntry} (he : e ∈ t)
    (hd : e.depth ≠ 0) (hid : e.id ∉ s) :
    e.entry_edge_id ∉ s ∧ e.direct_edge_id ∉ s ∧ e.exit_edge_id ∉ s := by
  have hf := List.map_eq_nil_iff.mp h
  have hn := List.filter_eq_nil_iff.mp hf e he
  simp only [decide_eq_true_eq] at hn
  constructor
  · intro hc; exact hn ⟨hd, Or.inl hc, hid⟩
  constructor
  · intro hc; exact hn ⟨hd, Or.inr (Or.inl hc), hid⟩
  · intro hc; exact hn ⟨hd, Or.inr (Or.inr hc), hid⟩

theorem purgeLoop_subset {t : List ClosureEntry} :
    ∀ {f : Nat} {s : List Nat} {x : Nat}, x ∈ s → x ∈ purgeLoop t s f := by
  intro f
  induction f with
  | zero => intro s x hx; exact hx
  | succ f ih =>
    intro s x hx
    simp only [purgeLoop]
    split
    · exact hx
    · exact ih (List.mem_append_left _ hx)

theorem purgeLoop_src {t : List ClosureEntry} :
    ∀ {f : Nat} {s : List Nat} {x : Nat}, x ∈ purgeLoop t s f →
      x ∈ s ∨ ∃ e ∈ t, e.id = x ∧ e.depth ≠ 0 := by
  intro f
  induction f with
  | zero => intro s x hx; exact Or.inl hx
  | succ f ih =>
    intro s x hx
    simp only [purgeLoop] at hx
    split at hx
    · exact Or.inl hx
    · rcases ih hx with h | h
      · rcases List.mem_append.mp h with h | h
        · exact Or.inl h
        · obtain ⟨e, he, hid, hd, _, _⟩ := newPurgeIds_spec h
          exact Or.inr ⟨e, he, hid, hd⟩
      · exact Or.inr h

theorem countP_le_of_pointwise {α : Type} {p q : α → Bool} :
    ∀ {l : List α}, (∀ a ∈ l, p a = true → q a = true) → l.countP p ≤ l.countP q := by
  intro l
  induction l with
  | nil => intro _; simp
  | cons x rest ih =>
    intro hmono
    have hr := ih fun a ha => hmono a (List.mem_cons_of_mem x ha)
    have hx := hmono x (List.mem_cons_self x rest)
    by_cases hp : p x = true
    · simp [List.countP_cons, hp, hx hp]; omega
    · have hp2 : p x = false := by revert hp; cases p x <;> simp
      by_cases hq : q x = true
      · simp [List.countP_cons, hp2, hq]; omega
      · have hq2 : q x = false := by revert hq; cases q x <;> simp
        simp [List.countP_cons, hp2, hq2]; omega

theorem countP_lt_of_pointwise {α : Type} {p q : α → Bool} {l : List α}
    (hmono : ∀ a ∈ l, p a = true → q a = true)
    (hex : ∃ a ∈ l, q a = true ∧ p a = false) : l.countP p < l.countP q := by
  induction l with
  | nil => obtain ⟨a, ha, _⟩ := hex; simp at ha
  | cons x rest ih =>
    obtain ⟨a, ha, hqa, hpa⟩ := hex
    rcases List.mem_cons.mp ha with rfl | ha2
    · have hle : rest.countP p ≤ rest.countP q :=
        countP_le_of_pointwise fun b hb => hmono b (List.mem_cons_of_mem a hb)
      simp [List.countP_cons, hpa, hqa]; omega
    · have hlt : rest.countP p < rest.countP q :=
        ih (fun b hb => hmono b (List.mem_cons_of_mem x hb)) ⟨a, ha2, hqa, hpa⟩
      have hx := hmono x (List.mem_cons_self x rest)
      by_cases hp : p x = true
      · simp [List.countP_cons, hp, hx hp]; omega
      · have hp2 : p x = false := by revert hp; cases p x <;> simp
        by_cases hq : q x = true
        · simp [List.countP_cons, hp2, hq]; omega
        · have hq2 : q x = false := by revert hq; cases q x <;> simp
          simp [List.countP_cons, hp2, hq2]; omega

theorem purgeLoop_reaches_fix {t : List ClosureEntry} :
    ∀ {f : Nat} {s : List Nat}, t.countP (fun e => decide (e.id ∉ s)) ≤ f →
      newPurgeIds t (purgeLoop t s f) = [] := by
  intro f
  induction f with
  | zero =>
    intro s hle
    have h0 := List.countP_eq_zero.mp (Nat.le_zero.mp hle)
    simp only [purgeLoop]
    have : (t.filter fun e =>
        decide (e.depth ≠ 0 ∧
          (e.entry_edge_id ∈ s ∨ e.direct_edge_id ∈ s ∨ e.exit_edge_id ∈ s) ∧
            e.id ∉ s)) = [] := by
      apply List.filter_eq_nil_iff.mpr
      intro e he
      have hin : ¬(e.id ∉ s) := by
        have := h0 e he
        simpa using this
      simp only [decide_eq_true_eq]
      intro hc
      exact hin hc.2.2
    simp only [newPurgeIds]
    rw [this]
    rfl
  | succ f ih =>
    intro s hle
    simp only [purgeLoop]
    split
    · next h => exact List.isEmpty_iff.mp h
    · next h =>
      apply ih
      have hne : newPurgeIds t s ≠ [] := by
        intro hc
        rw [hc] at h
        simp at h
      obtain ⟨x, hx⟩ := List.exists_mem_of_ne_nil _ hne
      obtain ⟨e, he, hid, _, hnotin, _⟩ := newPurgeIds_spec hx
      have hlt : t.countP (fun e => decide (e.id ∉ (s ++ newPurgeIds t s))) <
          t.countP (fun e => decide (e.id ∉ s)) := by
        apply countP_lt_of_pointwise
        · intro a _ hp
          simp only [decide_eq_true_eq] at hp ⊢
          intro hc
          exact hp (List.mem_append_left _ hc)
        · refine ⟨e, he, ?_, ?_⟩
          · simp only [decide_eq_true_eq]
            exact hnotin
          · simp only [decide_eq_false_iff_not]
            intro hc
            exact hc (List.mem_append_right _ (hid ▸ hx))
      omega

theorem WFat_mono {E1 E2 : List (Nat × Nat)} {t1 t2 : List ClosureEntry} {e : ClosureEntry}
    (hE : ∀ pr, pr ∈ E1 → pr ∈ E2) (ht : ∀ x, x ∈ t1 → x ∈ t2)
    (h : WFat E1 t1 e) : WFat E2 t2 e := by
  obtain ⟨h0, hp⟩ := h
  constructor
  · intro hd
    obtain ⟨he, h1, h2, h3⟩ := h0 hd
    exact ⟨hE _ he, h1, h2, h3⟩
  · intro hd
    obtain ⟨d, hdmem, hdid, hddepth, hpre, hpost⟩ := hp hd
    refine ⟨d, ht _ hdmem, hdid, hddepth, ?_, ?_⟩
    · rcases hpre with h | ⟨a, ha, h1, h2, h3, h4⟩
      · exact Or.inl h
      · exact Or.inr ⟨a, ht _ ha, h1, h2, h3, h4⟩
    · rcases hpost with h | ⟨b, hb, h1, h2, h3, h4⟩
      · exact Or.inl h
      · exact Or.inr ⟨b, ht _ hb, h1, h2, h3, h4⟩

theorem invTC_insertBranch {E : List (Nat × Nat)} {t : List ClosureEntry} {n i o : Nat}
    (hInv : InvTC E t) :
    InvTC ((i, o) :: E) (insertBranch t n i o).table ∨
      (insertBranch t n i o).table = t := by
  unfold insertBranch
  split
  · exact Or.inr rfl
  split
  · exact Or.inr rfl
  split
  · exact Or.inr rfl
  left
  set d0 := mkDepth0 n i o with hd0
  set t1 := t ++ [d0] with ht1
  set r3 := rowsStep3 (n + 1) n i o t1 with hr3
  set t2 := t1 ++ r3 with ht2
  set r4 := rowsStep4 (n + 1 + r3.length) n i o t2 with hr4
  set t3 := t2 ++ r4 with ht3
  set r5 := rowsStep5 (n + 1 + r3.length + r4.length) n i o t3 with hr5
  intro e he
  have hsub1 : ∀ x, x ∈ t1 → x ∈ t3 ++ r5 := by
    intro x hx
    exact List.mem_append_left _ (List.mem_append_left _ (List.mem_append_left _ hx))
  have hsub2 : ∀ x, x ∈ t2 → x ∈ t3 ++ r5 := by
    intro x hx
    exact List.mem_append_left _ (List.mem_append_left _ hx)
  have hsub3 : ∀ x, x ∈ t3 → x ∈ t3 ++ r5 := by
    intro x hx
    exact List.mem_append_left _ hx
  have hd0mem : d0 ∈ t3 ++ r5 :=
    hsub1 d0 (List.mem_append_right _ (List.mem_cons_self d0 []))
  rcases List.mem_append.mp he with he3 | he5
  rcases List.mem_append.mp he3 with he2 | he4
  rcases List.mem_append.mp he2 with he1 | her3
  rcases List.mem_append.mp he1 with het | hed0
  · -- a pre-existing row: monotone in the edge set and the table
    exact WFat_mono (fun pr hpr => List.mem_cons_of_mem _ hpr)
      (fun x hx => hsub1 x (List.mem_append_left _ hx)) (hInv e het)
  · -- the fresh depth-0 row
    have : e = d0 := by simpa using hed0
    subst this
    constructor
    · intro _
      exact ⟨List.mem_cons_self _ _, rfl, rfl, rfl⟩
    · intro hd
      exact absurd rfl hd
  · -- a row of the first derivation statement
    obtain ⟨b, x, hx, hre⟩ := mem_numberWith her3
    obtain ⟨hxt, hxp⟩ := List.mem_filter.mp hx
    simp only [decide_eq_true_eq] at hxp
    subst hre
    constructor
    · intro hd
      simp at hd
    · intro _
      refine ⟨d0, hd0mem, rfl, rfl, ?_, ?_⟩
      · exact Or.inr ⟨x, hsub1 x hxt, rfl, rfl, hxp, Nat.lt_succ_self _⟩
      · exact Or.inl ⟨rfl, rfl⟩
  · -- a row of the second derivation statement
    obtain ⟨b, x, hx, hre⟩ := mem_numberWith he4
    obtain ⟨hxt, hxp⟩ := List.mem_filter.mp hx
    simp only [decide_eq_true_eq] at hxp
    subst hre
    constructor
    · intro hd
      simp at hd
    · intro _
      refine ⟨d0, hd0mem, rfl, rfl, ?_, ?_⟩
      · exact Or.inl ⟨rfl, rfl⟩
      · exact Or.inr ⟨x, hsub2 x hxt, rfl, hxp, rfl, Nat.lt_succ_self _⟩
  · -- a row of the third derivation statement
    obtain ⟨b, x, hx, hre⟩ := mem_numberWith he5
    obtain ⟨hxa, hxb⟩ := mem_crossPairs hx
    obtain ⟨hat, hap⟩ := List.mem_filter.mp hxa
    obtain ⟨hbt, hbp⟩ := List.mem_filter.mp hxb
    simp only [decide_eq_true_eq] at hap hbp
    subst hre
    constructor
    · intro hd
      simp at hd
    · intro _
      refine ⟨d0, hd0mem, rfl, rfl, ?_, ?_⟩
      · refine Or.inr ⟨x.1, hsub3 x.1 hat, rfl, rfl, hap, ?_⟩
        show x.1.depth < x.1.depth + x.2.depth + 2
        omega
      · refine Or.inr ⟨x.2, hsub3 x.2 hbt, rfl, hbp, rfl, ?_⟩
        show x.2.depth < x.1.depth + x.2.depth + 2
        omega

theorem invTC_delete {E : List (Nat × Nat)} {t : List ClosureEntry} {i o : Nat}
    (hInv : InvTC E t) :
    InvTC (E.filter fun pr => decide (pr ≠ (i, o))) (delete_tc t i o) := by
  simp only [delete_tc]
  split
  · next hseed =>
    -- no depth-0 row matches: the table is untouched and no depth-0 row
    -- records the removed edge
    have hnone := purgeSeed_nil (List.isEmpty_iff.mp hseed)
    intro e he
    obtain ⟨h0, hp⟩ := hInv e he
    constructor
    · intro hd
      obtain ⟨hmem, h1, h2, h3⟩ := h0 hd
      refine ⟨List.mem_filter.mpr ⟨hmem, ?_⟩, h1, h2, h3⟩
      simp only [decide_eq_true_eq]
      intro hc
      have : e.parent_id = i ∧ e.child_id = o := by
        have := Prod.mk.injEq e.parent_id e.child_id i o ▸ hc
        exact Prod.mk.inj hc
      exact hnone e he ⟨this.1, this.2, hd⟩
    · exact hp
  · next hseed =>
    set S := purgeLoop t (purgeSeed t i o) t.length with hS
    have hfix : newPurgeIds t S = [] :=
      purgeLoop_reaches_fix (List.countP_le_length _)
    intro e he
    obtain ⟨het, hep⟩ := List.mem_filter.mp he
    simp only [decide_eq_true_eq] at hep
    obtain ⟨h0, hp⟩ := hInv e het
    constructor
    · intro hd
      obtain ⟨hmem, h1, h2, h3⟩ := h0 hd
      refine ⟨List.mem_filter.mpr ⟨hmem, ?_⟩, h1, h2, h3⟩
      simp only [decide_eq_true_eq]
      intro hc
      obtain ⟨hpi, hco⟩ := Prod.mk.inj hc
      exact hep (purgeLoop_subset (mem_purgeSeed het ⟨hpi, hco, hd⟩))
    · intro hd
      obtain ⟨d, hdmem, hdid, hddepth, hpre, hpost⟩ := hp hd
      obtain ⟨hce, hcd, hcx⟩ := newPurgeIds_nil_no_cite hfix het hd hep
      refine ⟨d, List.mem_filter.mpr ⟨hdmem, ?_⟩, hdid, hddepth, ?_, ?_⟩
      · simp only [decide_eq_true_eq]
        rw [hdid]
        exact hcd
      · rcases hpre with h | ⟨a, ha, h1, h2, h3, h4⟩
        · exact Or.inl h
        · refine Or.inr ⟨a, List.mem_filter.mpr ⟨ha, ?_⟩, h1, h2, h3, h4⟩
          simp only [decide_eq_true_eq]
          rw [h1]
          exact hce
      · rcases hpost with h | ⟨b, hb, h1, h2, h3, h4⟩
        · exact Or.inl h
        · refine Or.inr ⟨b, List.mem_filter.mpr ⟨hb, ?_⟩, h1, h2, h3, h4⟩
          simp only [decide_eq_true_eq]
          rw [h1]
          exact hcx

theorem reach_of_invTC {E : List (Nat × Nat)} {t : List ClosureEntry}
    (hInv : InvTC E t) : ∀ e ∈ t, Reach E e.parent_id e.child_id := by
  suffices key : ∀ n : Nat, ∀ e ∈ t, e.depth ≤ n → Reach E e.parent_id e.child_id by
    intro e he
    exact key e.depth e he le_rfl
  intro n
  induction n with
  | zero =>
    intro e he hd
    have h0 : e.depth = 0 := Nat.le_zero.mp hd
    exact Reach.edge ((hInv e he).1 h0).1
  | succ n ih =>
    intro e he hd
    by_cases h0 : e.depth = 0
    · exact Reach.edge ((hInv e he).1 h0).1
    · obtain ⟨d, hdmem, hdid, hddepth, hpre, hpost⟩ := (hInv e he).2 h0
      have hmid : Reach E d.parent_id d.child_id :=
        Reach.edge ((hInv d hdmem).1 hddepth).1
      have hfront : Reach E e.parent_id d.child_id := by
        rcases hpre with ⟨_, hpp⟩ | ⟨a, ham, _, hap, hac, hadep⟩
        · rw [hpp]
          exact hmid
        · have hra : Reach E a.parent_id a.child_id := ih a ham (by omega)
          rw [hap, hac] at hra
          exact Reach.trans hra hmid
      rcases hpost with ⟨_, hcc⟩ | ⟨b, hbm, _, hbp, hbc, hbdep⟩
      · rw [hcc]
        exact hfront
      · have hrb : Reach E b.parent_id b.child_id := ih b hbm (by omega)
        rw [hbp, hbc] at hrb
        exact Reach.trans hfront hrb

theorem invTC_step {s : St} (hInv : InvTC s.edges s.table) (op : LinkOp) :
    InvTC (step s op).edges (step s op).table := by
  cases op with
  | insertLink i o =>
    simp only [step, update_tc]
    rcases invTC_insertBranch (n := s.nextId) (i := i) (o := o) hInv with h | h
    · cases hr : (insertBranch s.table s.nextId i o).rejected with
      | some r =>
        simp only [hr]
        exact hInv
      | none =>
        simp only [hr]
        exact h
    · cases hr : (insertBranch s.table s.nextId i o).rejected with
      | some r =>
        simp only [hr]
        exact hInv
      | none =>
        simp only [hr, h]
        -- the table is unchanged, but the edge list gained (i, o)
        intro e he
        exact WFat_mono (fun pr hpr => List.mem_cons_of_mem _ hpr) (fun x hx => hx)
          (hInv e he)
  | deleteLink i o =>
    simp only [step, update_tc]
    exact invTC_delete hInv

theorem invTC_runOps (ops : List LinkOp) :
    InvTC (runOps ops).edges (runOps ops).table := by
  suffices key : ∀ (l : List LinkOp) (s : St), InvTC s.edges s.table →
      InvTC (l.foldl step s).edges (l.foldl step s).table by
    apply key
    intro e he
    simp [St.start] at he
  intro l
  induction l with
  | nil => intro s h; exact h
  | cons op rest ih =>
    intro s h
    exact ih (step s op) (invTC_step h op)

theorem filter_child_r3_nil {base n i o : Nat} {t : List ClosureEntry} (hio : i ≠ o) :
    ((rowsStep3 base n i o t).filter fun e => decide (e.child_id = i)) = [] := by
  apply List.filter_eq_nil_iff.mpr
  intro r hr
  obtain ⟨b, x, _, hre⟩ := mem_numberWith hr
  subst hre
  simp only [decide_eq_true_eq]
  show ¬o = i
  exact fun h => hio h.symm

theorem filter_parent_r3_nil {base n i o : Nat} {t : List ClosureEntry}
    (hcyc : ∀ e ∈ t, ¬(e.parent_id = o ∧ e.child_id = i)) :
    ((rowsStep3 base n i o t).filter fun e => decide (e.parent_id = o)) = [] := by
  apply List.filter_eq_nil_iff.mpr
  intro r hr
  obtain ⟨b, x, hx, hre⟩ := mem_numberWith hr
  obtain ⟨hxt, hxp⟩ := List.mem_filter.mp hx
  simp only [decide_eq_true_eq] at hxp
  subst hre
  simp only [decide_eq_true_eq]
  show ¬x.parent_id = o
  intro hc
  exact hcyc x hxt ⟨hc, hxp⟩

theorem filter_child_r4_nil {base n i o : Nat} {t : List ClosureEntry}
    (hcyc : ∀ e ∈ t, ¬(e.parent_id = o ∧ e.child_id = i)) :
    ((rowsStep4 base n i o t).filter fun e => decide (e.child_id = i)) = [] := by
  apply List.filter_eq_nil_iff.mpr
  intro r hr
  obtain ⟨b, x, hx, hre⟩ := mem_numberWith hr
  obtain ⟨hxt, hxp⟩ := List.mem_filter.mp hx
  simp only [decide_eq_true_eq] at hxp
  subst hre
  simp only [decide_eq_true_eq]
  show ¬x.child_id = i
  intro hc
  exact hcyc x hxt ⟨hxp, hc⟩

theorem filter_parent_r4_nil {base n i o : Nat} {t : List ClosureEntry} (hio : i ≠ o) :
    ((rowsStep4 base n i o t).filter fun e => decide (e.parent_id = o)) = [] := by
  apply List.filter_eq_nil_iff.mpr
  intro r hr
  obtain ⟨b, x, _, hre⟩ := mem_numberWith hr
  subst hre
  simp only [decide_eq_true_eq]
  show ¬i = o
  exact hio

theorem filter_child_d0_nil {n i o : Nat} (hio : i ≠ o) :
    (([mkDepth0 n i o].filter fun e => decide (e.child_id = i))) = [] := by
  have hoi : ¬o = i := fun h => hio h.symm
  simp [mkDepth0, hoi]

theorem filter_parent_d0_nil {n i o : Nat} (hio : i ≠ o) :
    (([mkDepth0 n i o].filter fun e => decide (e.parent_id = o))) = [] := by
  simp [mkDepth0, hio]

/-- Claim C2 (refinement): for an insertion accepted by the guard, the rows
produced by the three sequential derivation statements of the INSERT branch
(each seeing the previous statements' rows and the new depth-0 row) are
exactly the rows `snapshotDerived` computes from the single pre-insertion
snapshot: no row inserted by the call feeds the same call's derivation. -/
theorem insertBranch_snapshot (t : List ClosureEntry) (n i o : Nat)
    (hd0 : depth0Exists t i o = false) (hio : i ≠ o) (hcyc : cycleExists t i o = false) :
    (update_tc .ins i o t n).table = t ++ mkDepth0 n i o :: snapshotDerived t n i o ∧
      (update_tc .ins i o t n).rejected = none := by
  have hcyc2 := cycleExists_false hcyc
  have h3 : rowsStep3 (n + 1) n i o (t ++ [mkDepth0 n i o]) = rowsStep3 (n + 1) n i o t := by
    unfold rowsStep3
    rw [List.filter_append, filter_child_d0_nil hio, List.append_nil]
  have h4 : ∀ base, rowsStep4 base n i o
      ((t ++ [mkDepth0 n i o]) ++ rowsStep3 (n + 1) n i o t) = rowsStep4 base n i o t := by
    intro base
    unfold rowsStep4
    simp only [List.filter_append, filter_parent_d0_nil hio, filter_parent_r3_nil hcyc2,
      List.append_nil]
  have h5 : ∀ base, rowsStep5 base n i o
      (((t ++ [mkDepth0 n i o]) ++ rowsStep3 (n + 1) n i o t) ++
        rowsStep4 (n + 1 + (rowsStep3 (n + 1) n i o t).length) n i o t) =
      rowsStep5 base n i o t := by
    intro base
    unfold rowsStep5
    simp only [List.filter_append, filter_child_d0_nil hio, filter_child_r3_nil hio,
      filter_child_r4_nil hcyc2, filter_parent_d0_nil hio, filter_parent_r3_nil hcyc2,
      filter_parent_r4_nil hio, List.append_nil]
  simp only [update_tc, insertBranch, hd0, hcyc, hio]
  simp only [Bool.false_eq_true, if_false]
  rw [h3, h4, h5]
  constructor
  · simp [snapshotDerived, List.append_assoc, List.singleton_append]
  · trivial

theorem guard_reject_aux (t : List ClosureEntry) (n i o : Nat) :
    ((update_tc .ins i o t n).rejected.isSome = true ↔
      i = o ∨ (∃ e ∈ t, e.parent_id = i ∧ e.child_id = o ∧ e.depth = 0) ∨
        ∃ e ∈ t, e.parent_id = o ∧ e.child_id = i) ∧
    ((update_tc .ins i o t n).rejected.isSome = true → (update_tc .ins i o t n).table = t) := by
  simp only [update_tc, insertBranch]
  by_cases h1 : depth0Exists t i o = true
  · obtain ⟨e, he, hp⟩ := List.any_eq_true.mp h1
    simp only [decide_eq_true_eq] at hp
    simp only [h1, if_true]
    constructor
    · simp only [Option.isSome_some, true_iff]
      exact Or.inr (Or.inl ⟨e, he, hp⟩)
    · intro _
      trivial
  · have h1f : depth0Exists t i o = false := by revert h1; cases depth0Exists t i o <;> simp
    simp only [h1f, Bool.false_eq_true, if_false]
    by_cases h2 : i = o
    · simp only [h2, if_true]
      constructor
      · simp
      · intro _
        trivial
    · simp only [h2, if_false]
      by_cases h3 : cycleExists t i o = true
      · obtain ⟨e, he, hp⟩ := List.any_eq_true.mp h3
        simp only [decide_eq_true_eq] at hp
        simp only [h3, if_true]
        constructor
        · simp only [Option.isSome_some, true_iff]
          exact Or.inr (Or.inr ⟨e, he, hp⟩)
        · intro _
          trivial
      · have h3f : cycleExists t i o = false := by revert h3; cases cycleExists t i o <;> simp
        simp only [h3f, Bool.false_eq_true, if_false]
        constructor
        · simp only [Option.isSome_none, Bool.false_eq_true, false_iff]
          intro hc
          rcases hc with hc | hc | hc
          · exact hc
          · obtain ⟨e2, he2, hp2⟩ := hc
            exact (depth0Exists_false h1f) e2 he2 hp2
          · obtain ⟨e2, he2, hp2⟩ := hc
            exact (cycleExists_false h3f) e2 he2 hp2
        · intro hc
          simp at hc

/-- Claim C6 (idempotent deletion): for every closure-table state and every
edge with no matching depth-0 row, the DELETE branch leaves the table
unchanged and reports no error outcome. -/
theorem delete_noop (t : List ClosureEntry) (n i o : Nat)
    (h : ∀ e ∈ t, ¬(e.parent_id = i ∧ e.child_id = o ∧ e.depth = 0)) :
    update_tc .del i o t n = ⟨t, n, none⟩ := by
  have hseed : purgeSeed t i o = [] := by
    unfold purgeSeed
    rw [List.filter_eq_nil_iff.mpr ?_]
    · rfl
    · intro e he
      simp only [decide_eq_true_eq]
      exact h e he
  simp [update_tc, delete_tc, hseed]

/-- Claim C9 (depth-0 frame property): when the DELETE branch runs for edge
`(i, o)` on a table with distinct row ids, a depth-0 row survives exactly
when it is not the `(i, o)` depth-0 row — the purge scan only takes rows
of positive depth, so no other depth-0 row can be removed. -/
theorem delete_depth0_frame (t : List ClosureEntry) (i o : Nat)
    (hids : (t.map fun e => e.id).Nodup) :
    ∀ e ∈ t, e.depth = 0 →
      (e ∈ delete_tc t i o ↔ ¬(e.parent_id = i ∧ e.child_id = o)) := by
  intro e he hd
  constructor
  · intro hmem hc
    have hseedmem : e.id ∈ purgeSeed t i o := mem_purgeSeed he ⟨hc.1, hc.2, hd⟩
    have hnonempty : purgeSeed t i o ≠ [] := by
      intro h0
      rw [h0] at hseedmem
      simp at hseedmem
    have hcond : ¬((purgeSeed t i o).isEmpty = true) :=
      fun h0 => hnonempty (List.isEmpty_iff.mp h0)
    simp only [delete_tc, if_neg hcond] at hmem
    obtain ⟨_, hp⟩ := List.mem_filter.mp hmem
    simp only [decide_eq_true_eq] at hp
    exact hp (purgeLoop_subset hseedmem)
  · intro hne
    simp only [delete_tc]
    split
    · exact he
    · apply List.mem_filter.mpr
      refine ⟨he, ?_⟩
      simp only [decide_eq_true_eq]
      intro hin
      rcases purgeLoop_src hin with hseed | ⟨e2, he2, hid2, hd2⟩
      · obtain ⟨e2, he2, hid2, hp2, hc2, _⟩ := purgeSeed_spec hseed
        have heq : e2 = e := List.inj_on_of_nodup_map hids he2 he hid2
        subst heq
        exact hne ⟨hp2, hc2⟩
      · have heq : e2 = e := List.inj_on_of_nodup_map hids he2 he hid2
        subst heq
        exact hd2 hd

/-- Claim C4 (cascading purge): inserting the chain 1→2→3→4 from the empty
table yields exactly six rows (three depth-0, two depth-1, one depth-2),
and deleting edge `(2, 3)` removes exactly the `(2,3)` depth-0 row, the
`(1,3)` and `(2,4)` depth-1 rows and the `(1,4)` depth-2 row, leaving
exactly the `(1,2)` and `(3,4)` depth-0 rows. -/
theorem chain_purge_exact :
    chainSt.table =
      [⟨0, 1, 2, 0, 0, 0, 0⟩, ⟨1, 2, 3, 0, 1, 1, 1⟩, ⟨2, 1, 3, 1, 0, 1, 1⟩,
        ⟨3, 3, 4, 0, 3, 3, 3⟩, ⟨4, 2, 4, 1, 1, 3, 3⟩, ⟨5, 1, 4, 2, 2, 3, 3⟩] ∧
    delete_tc chainSt.table 2 3 = [⟨0, 1, 2, 0, 0, 0, 0⟩, ⟨3, 3, 4, 0, 3, 3, 3⟩] := by
  decide

/-- Claim C5 (completeness on a two-edge chain): from the empty table,
inserting edge `(1, 2)` and then `(2, 3)` yields a closure row with parent
1, child 3 and depth 1 in addition to the two depth-0 rows. -/
theorem two_edge_chain_completeness :
    (∃ e ∈ (runOps [.insertLink 1 2, .insertLink 2 3]).table,
      e.parent_id = 1 ∧ e.child_id = 3 ∧ e.depth = 1) ∧
    (runOps [.insertLink 1 2, .insertLink 2 3]).table =
      [⟨0, 1, 2, 0, 0, 0, 0⟩, ⟨1, 2, 3, 0, 1, 1, 1⟩, ⟨2, 1, 3, 1, 0, 1, 1⟩] := by
  decide

/-- Claim C8, counterexample: deleting `(2, 3)` from the 1→2→3→4 chain and
reinserting it does NOT reproduce the original closure up to identifiers
with the same lineage shape: the multisets of identifier-free lineage
profiles differ (the original `(1,4)` depth-2 row cites the `(1,3)`
depth-1 row as its entry edge, while the reinserted one cites the `(1,2)`
depth-0 row, and similarly for the `(2,4)` row). -/
theorem reinsert_lineage_counterexample :
    ¬(Multiset.ofList (reinsertSt.table.map fun e => lineageProfile reinsertSt.table e) =
      Multiset.ofList (chainSt.table.map fun e => lineageProfile chainSt.table e)) := by
  decide

/-- Claim C8, amended: deleting `(2, 3)` from the 1→2→3→4 chain and
reinserting it reproduces exactly the original six
`(parent_id, child_id, depth)` rows as a multiset (no stale rows survive
and none are missing), though the lineage references of the recreated rows
may have a different shape. -/
theorem reinsert_same_row_multiset :
    Multiset.ofList (reinsertSt.table.map fun e => (e.parent_id, e.child_id, e.depth)) =
      Multiset.ofList (chainSt.table.map fun e => (e.parent_id, e.child_id, e.depth)) := by
  decide

/-- Claim C10 (UPDATE is a no-op): the trigger body matches neither the
INSERT nor the DELETE branch when `tg_op` is UPDATE, so the closure table
is left completely unchanged and no error is reported. -/
theorem update_trigger_noop (i o : Nat) (t : List ClosureEntry) (n : Nat) :
    update_tc .upd i o t n = ⟨t, n, none⟩ := rfl

/-- Claim C1 (soundness invariant): for every sequence of edge insertions and
deletions applied through the trigger from the empty state (rejected
insertions change nothing), every closure row present afterwards certifies
an actual directed path from its `parent_id` to its `child_id` in the
current edge set. -/
theorem closure_soundness (ops : List LinkOp) :
    ∀ e ∈ (runOps ops).table, Reach (runOps ops).edges e.parent_id e.child_id :=
  reach_of_invTC (invTC_runOps ops)

theorem closure_soundness_witness :
    Reach (runOps [.insertLink 1 2]).edges 1 2 :=
  closure_soundness [.insertLink 1 2] (mkDepth0 0 1 2) (by decide)

theorem insertBranch_snapshot_witness :
    (update_tc .ins 2 3 [⟨0, 1, 2, 0, 0, 0, 0⟩] 1).table =
      [⟨0, 1, 2, 0, 0, 0, 0⟩] ++
        mkDepth0 1 2 3 :: snapshotDerived [⟨0, 1, 2, 0, 0, 0, 0⟩] 1 2 3 :=
  (insertBranch_snapshot [⟨0, 1, 2, 0, 0, 0, 0⟩] 1 2 3 (by decide) (by decide) (by decide)).1

/-- Claim C3 (guard): an edge insertion `(i, o)` is rejected if and only if
`i = o` (SelfLoop), or a depth-0 row for `(i, o)` exists (AlreadyLinked),
or any row from `o` back to `i` exists (WouldCreateCycle); a rejected
insertion leaves the closure table unchanged; and concretely, with edges
`(1,2)` and `(2,3)` present, inserting `(3,1)` is rejected with
`WouldCreateCycle` and the table is untouched. -/
theorem guard_rejection_characterization (t : List ClosureEntry) (n i o : Nat) :
    ((update_tc .ins i o t n).rejected.isSome = true ↔
      i = o ∨ (∃ e ∈ t, e.parent_id = i ∧ e.child_id = o ∧ e.depth = 0) ∨
        ∃ e ∈ t, e.parent_id = o ∧ e.child_id = i) ∧
    ((update_tc .ins i o t n).rejected.isSome = true → (update_tc .ins i o t n).table = t) ∧
    update_tc .ins 3 1 (runOps [.insertLink 1 2, .insertLink 2 3]).table 3 =
      ⟨(runOps [.insertLink 1 2, .insertLink 2 3]).table, 3, some .WouldCreateCycle⟩ :=
  ⟨(guard_reject_aux t n i o).1, (guard_reject_aux t n i o).2, by decide⟩

theorem guard_rejection_characterization_witness :
    (update_tc .ins 5 5 ([] : List ClosureEntry) 0).rejected.isSome = true :=
  (guard_rejection_characterization [] 0 5 5).1.mpr (Or.inl rfl)

theorem delete_noop_witness :
    update_tc .del 9 9 chainSt.table 6 = ⟨chainSt.table, 6, none⟩ :=
  delete_noop chainSt.table 6 9 9 (by decide)

/-- Claim C7 (termination of the purge loop): one scan only ever adds ids
not already in the purge list, the purge list only grows, and `t.length`
scans always reach the fixed point, so the fuelled `purgeLoop` with fuel
equal to the table size computes the full fixed point — the SQL loop
terminates after at most as many iterations as there are closure rows. -/
theorem purge_loop_termination (t : List ClosureEntry) (s : List Nat) :
    (∀ x ∈ newPurgeIds t s, x ∉ s) ∧
    (∀ f : Nat, ∀ x ∈ s, x ∈ purgeLoop t s f) ∧
    newPurgeIds t (purgeLoop t s t.length) = [] := by
  refine ⟨?_, ?_, ?_⟩
  · intro x hx
    obtain ⟨e, _, hid, _, hnot, _⟩ := newPurgeIds_spec hx
    exact hid ▸ hnot
  · intro f x hx
    exact purgeLoop_subset hx
  · exact purgeLoop_reaches_fix (List.countP_le_length _)

theorem purge_loop_termination_witness :
    (2 ∉ [1]) ∧ (1 ∈ purgeLoop chainSt.table [1] 6) ∧
      newPurgeIds chainSt.table (purgeLoop chainSt.table [1] chainSt.table.length) = [] := by
  obtain h := purge_loop_termination chainSt.table [1]
  exact ⟨h.1 2 (by decide), h.2.1 6 1 (by decide), h.2.2⟩

theorem delete_depth0_frame_witness :
    (⟨0, 1, 2, 0, 0, 0, 0⟩ : ClosureEntry) ∈ delete_tc chainSt.table 2 3 :=
  (delete_depth0_frame chainSt.table 2 3 (by decide) ⟨0, 1, 2, 0, 0, 0, 0⟩ (by decide)
    (by decide)).mpr (by decide)
